import Mathlib

/-!
Rate limiter middleware (`mw/limiter/limiter.go`)

A shallow embedding of the middleware built by `limiter.New`: the rate estimator
and the execution guard.

Modelling conventions:
* a `time.Time` is an integer count of nanoseconds since the zero `Time`, a
  `time.Duration` is an integer count of nanoseconds;
* `float64` values are exact rationals, so `k`, `m` and every estimate are
  computed without rounding;
* the conversion `time.Duration(x)` of line 34 keeps the `int64` range of a
  `Duration`;
* a Go `map[string]info` is a function `String → Option info`; the `nil` map
  reads like the empty map.
-/

namespace Limiter

/-! ## Constants and data -/

/-- Decay factor, `k = 0.010`. -/
def k : ℚ := 10 / 1000

/-- Burst factor, `m = 1.200`. -/
def m : ℚ := 1200 / 1000

/-- The `time.Second` constant, in nanoseconds. -/
def Second : Int := 1000000000

/-- The `time.Minute` constant, in nanoseconds. -/
def Minute : Int := 60 * Second

/-- The method `Duration.Seconds`: a duration in nanoseconds as a number of seconds. -/
def Seconds (d : Int) : ℚ := (d : ℚ) / 1000000000

/-- The method `Time.Sub`: the duration `t - u` (differences are taken to fit a `Duration`). -/
def Sub (t u : Int) : Int := t - u

/-- The method `Time.Add`. -/
def Add (t d : Int) : Int := t + d

/-- The method `Time.After`: `t` is strictly later than `u`. -/
def After (t u : Int) : Bool := decide (u < t)

/-- The largest `int64`, `math.MaxInt64`: the largest `Duration`. -/
def MaxInt64 : Int := 9223372036854775807

/-- The smallest `int64`, `math.MinInt64`: the smallest `Duration`. -/
def MinInt64 : Int := -9223372036854775808

/-- The conversion `time.Duration(x)` of a float to the `int64` under a
`Duration`: the fraction is discarded (truncation toward zero) when the
truncated value fits an `int64`. Out of that range Go leaves the result to the
implementation; the value given here is the one the amd64 conversion yields,
the smallest `int64`. -/
def toDuration (x : ℚ) : Int :=
  let t := Int.tdiv x.num (x.den : Int)
  if MinInt64 ≤ t ∧ t ≤ MaxInt64 then t else MinInt64

/-- The per client record `info`. -/
structure info where
  dur : ℚ
  time : Int
deriving DecidableEq

/-- The zero value of `info`, returned by a map read that misses. -/
def info.zero : info := ⟨0, 0⟩

/-- A `map[string]info`. -/
abbrev InfoMap := String → Option info

/-- The empty map, `make(map[string]info)`; a `nil` map reads the same. -/
def emptyMap : InfoMap := fun _ => none

/-- The two-valued map read `x, ok := mp[key]`. -/
def mapGet (mp : InfoMap) (key : String) : info × Bool :=
  match mp key with
  | some x => (x, true)
  | none => (info.zero, false)

/-- The map write `mp[key] = x`. -/
def mapSet (mp : InfoMap) (key : String) (x : info) : InfoMap :=
  fun j => if j = key then some x else mp j

/-! ## Construction -/

/-- The variable `mdur` after `New`: `duration.Seconds()` when rate limiting is
enabled, the zero value otherwise. -/
def mdur (duration : Int) : ℚ :=
  if duration > 0 then Seconds duration else 0

/-- The variable `sdur` after `New`: the epoch length, floored at ten minutes
when rate limiting is enabled, the zero value otherwise. -/
def sdur (duration : Int) : Int :=
  if duration > 0 then
    let s := toDuration (1000000000 * mdur duration * (m + k - 1) / k)
    if s < 10 * Minute then 10 * Minute else s
  else 0

/-- The mutable variables captured by the middleware closure. -/
structure State where
  stime : Int
  hinfo : InfoMap
  cinfo : InfoMap

/-- The captured variables as `New` leaves them, `start` being the reading of
`time.Now()` taken inside `New`. -/
def New (duration : Int) (start : Int) : State :=
  if duration > 0 then
    { stime := Add start (sdur duration), hinfo := emptyMap, cinfo := emptyMap }
  else
    { stime := 0, hinfo := emptyMap, cinfo := emptyMap }

/-! ## The rate check -/

/-- Modelled from the spec: the failure built by `ws.Status(code, text)`, a
function of the enclosing `ws` package; only the status code and the text it
carries are kept. -/
structure StatusError where
  code : Nat
  text : String
deriving DecidableEq

/-- The constant `http.StatusTooManyRequests`. -/
def StatusTooManyRequests : Nat := 429

/-- Lines 49-52: read `key` in `hinfo`, and in `cinfo` only when `hinfo` misses. -/
def find (s : State) (key : String) : info × Bool :=
  let r := mapGet s.hinfo key
  if !r.2 then mapGet s.cinfo key else r

/-- Lines 47 and 53-55: the estimate `dur` for a request of `key` at `now`. -/
def estimate (duration : Int) (s : State) (key : String) (now : Int) : ℚ :=
  let r := find s key
  if r.2 then k * Seconds (Sub now r.1.time) + (1 - k) * r.1.dur
  else m * mdur duration

/-- Lines 57-59: the rotation of the two generations once `now` is after `stime`. -/
def rotate (duration : Int) (s : State) (now : Int) : State :=
  if After now s.stime then
    { stime := Add now (sdur duration), hinfo := emptyMap, cinfo := s.hinfo }
  else s

/-- What one rate check yields: the new captured variables, the estimate, the
error returned (if any) and whether the error was logged. -/
structure Outcome where
  state : State
  dur : ℚ
  err : Option StatusError
  logged : Bool

/-- Whether the rate check lets the request through. -/
def Outcome.allowed (o : Outcome) : Bool := o.err.isNone

/-- Lines 47-71, the body of `if duration > 0`: one rate check of a request from
`key` whose `time.Now()` reading is `now`. -/
def Admit (duration : Int) (s : State) (key : String) (now : Int) : Outcome :=
  let x := (find s key).1
  let dur := estimate duration s key now
  let s1 := rotate duration s now
  let s2 : State := { s1 with hinfo := mapSet s1.hinfo key { dur := dur, time := now } }
  if dur < mdur duration then
    { state := s2, dur := dur, err := some ⟨StatusTooManyRequests, key⟩,
      logged := decide (x.dur ≥ mdur duration) }
  else
    { state := s2, dur := dur, err := none, logged := false }

/-- A request as the rate check sees it: the client key and the clock reading. -/
abbrev Event := String × Int

/-- The captured variables after a sequence of rate checks. -/
def run (duration : Int) (s : State) (evs : List Event) : State :=
  evs.foldl (fun st e => (Admit duration st e.1 e.2).state) s

/-- The number of rotations performed along a sequence of rate checks. -/
def rotations (duration : Int) : State → List Event → Nat
  | _, [] => 0
  | s, e :: evs =>
    (if After e.2 s.stime then 1 else 0) + rotations duration (Admit duration s e.1 e.2).state evs

/-- The record the rate check takes as the prior one, as the specification
words it: the current generation first, the previous one only on a miss. -/
def prior (s : State) (key : String) : Option info :=
  match s.hinfo key with
  | some x => some x
  | none => s.cinfo key

/-- The decayed estimate of the specification for a prior record `x`. -/
def decay (x : info) (now : Int) : ℚ :=
  k * Seconds (now - x.time) + (1 - k) * x.dur

/-- The requests of one client `key` sent at `t0`, `t0 + g`, `t0 + 2 * g`, ...:
the first `n` of them. -/
def constGap (key : String) (t0 g : Int) (n : Nat) : List Event :=
  (List.range n).map fun i => (key, t0 + (i : Int) * g)

/-- A request at `now` comes at least `minInterval / (1 - k)` after the latest
request `last` of the same client, when there is one. -/
def gapOk (duration : Int) (last : Option Int) (now : Int) : Bool :=
  match last with
  | none => true
  | some t => decide (mdur duration / (1 - k) ≤ Seconds (now - t))

/-- The successive requests of `key` in a sequence are at least
`minInterval / (1 - k)` apart; `last` is the time of the latest request of `key`
before the sequence, if there is one. Requests of other keys are unconstrained. -/
def spaced (duration : Int) (key : String) : Option Int → List Event → Bool
  | _, [] => true
  | last, e :: evs =>
    if e.1 = key then
      gapOk duration last e.2 && spaced duration key (some e.2) evs
    else spaced duration key last evs

/-- The clock readings of a sequence of requests never go back. -/
def nondecreasing (evs : List Event) : Prop :=
  List.Pairwise (fun a b => a ≤ b) (evs.map Prod.snd)

/-! ## The middleware around the rate check -/

/-- An `error` value as the middleware hands it back: a status failure built by
`ws.Status`, or an error carrying a message (as `fmt.Errorf` builds). -/
inductive GoError where
  | status (e : StatusError)
  | message (text : String)
deriving DecidableEq

/-- The constant `http.StatusRequestTimeout`. -/
def StatusRequestTimeout : Nat := 408

/-- How a call of a handler (or of the middleware) ends: it returns an `error`
(`none` for `nil`), it aborts with a value (kept as the text `%v` prints for
it), or it never returns. -/
inductive Result where
  | ret (err : Option GoError)
  | aborted (x : String)
  | hang
deriving DecidableEq

/-- What the middleware sees of one request: `ctx.RealIP()`, the reading of
`time.Now()`, the behaviour of `ctx.Next()` given the body limit installed (if
any), and whether the `select` takes the `time.After` case. -/
structure Request where
  key : String
  now : Int
  next : Option Int → Result
  deadlineFirst : Bool

/-- An operation of the worker goroutine on the channel `ch`. -/
inductive ChanOp where
  | send (v : Option GoError)
  | close
deriving DecidableEq

/-- Lines 78-86: the channel operations of the worker goroutine, in program
order, for a handler ending as `h`. A normal return is sent at line 85 and the
deferred function closes `ch`; an abort is recovered by the deferred function,
which sends `fmt.Errorf("ws: %v", x)` and closes `ch`. -/
def worker (h : Result) : List ChanOp :=
  match h with
  | Result.ret e => [ChanOp.send e, ChanOp.close]
  | Result.aborted x => [ChanOp.send (some (GoError.message ("ws: " ++ x))), ChanOp.close]
  | Result.hang => []

/-- The receive `err := <-ch` of line 89 against the worker's operations: the
value of the first send, the zero value if `ch` is closed first, nothing when
the worker never gets to the channel. -/
def receive : List ChanOp → Option (Option GoError)
  | [] => none
  | ChanOp.send v :: _ => some v
  | ChanOp.close :: _ => some none

/-- Lines 73-94, the execution guard: the handler is called synchronously when
`timeout ≤ 0`; otherwise it runs on the worker and the `select` hands back what
is received from `ch`, or the request-timeout failure when the `time.After`
case is taken (always so when the worker never signals). -/
def Run (timeout : Int) (key : String) (h : Result) (deadlineFirst : Bool) : Result :=
  if timeout ≤ 0 then h
  else
    match (if deadlineFirst then none else receive (worker h)) with
    | some err => Result.ret err
    | none => Result.ret (some (GoError.status ⟨StatusRequestTimeout, key⟩))

/-- The channel `ch`: its capacity, the values buffered, whether it is closed. -/
structure Chan where
  cap : Nat
  buf : List (Option GoError)
  closed : Bool
deriving DecidableEq

/-- The channel `make(chan error, cap)`. -/
def makeChan (cap : Nat) : Chan := ⟨cap, [], false⟩

/-- Line 77, `ch := make(chan error)`: an unbuffered channel. -/
def ch : Chan := makeChan 0

/-- One step of the worker once the caller has left the `select` through the
`time.After` case, so that nobody receives on the channel any more: a send goes
through only into free buffer space and blocks otherwise, a close always goes
through. The pair is the channel and the operations the worker has still to do. -/
def workerStep (c : Chan × List ChanOp) : Chan × List ChanOp :=
  match c.2 with
  | [] => c
  | ChanOp.send v :: rest =>
    if c.1.buf.length < c.1.cap then ({ c.1 with buf := c.1.buf ++ [v] }, rest) else c
  | ChanOp.close :: rest => ({ c.1 with closed := true }, rest)

/-- The abandoned worker after `n` steps, for a channel `c` and a handler that
ends as `h`. -/
def abandoned (c : Chan) (h : Result) (n : Nat) : Chan × List ChanOp :=
  Nat.iterate workerStep n (c, worker h)

/-- What lines 46-72 yield: the captured variables, the error returned by the
rate check (if any) and whether it was logged. -/
structure Checked where
  state : State
  err : Option StatusError
  logged : Bool

/-- Lines 46-72: the rate check behind its guard `duration > 0`. -/
def check (duration : Int) (s : State) (key : String) (now : Int) : Checked :=
  if duration > 0 then
    let o := Admit duration s key now
    { state := o.state, err := o.err, logged := o.logged }
  else
    { state := s, err := none, logged := false }

/-- What one call of the middleware yields: the captured variables, how the call
ends, how many times `ctx.Next()` was called and whether a rejection was logged. -/
structure Response where
  state : State
  result : Result
  invoked : Nat
  logged : Bool

/-- Lines 42-94, the closure returned by `New`. -/
def middleware (size duration timeout : Int) (s : State) (req : Request) : Response :=
  let body : Option Int := if size > 0 then some size else none
  let c := check duration s req.key req.now
  match c.err with
  | some e =>
    { state := c.state, result := Result.ret (some (GoError.status e)), invoked := 0,
      logged := c.logged }
  | none =>
    { state := c.state, result := Run timeout req.key (req.next body) req.deadlineFirst,
      invoked := 1, logged := c.logged }

/-- The captured variables after the middleware served a sequence of requests. -/
def serve (size duration timeout : Int) (s : State) (reqs : List Request) : State :=
  reqs.foldl (fun st r => (middleware size duration timeout st r).state) s

/-- Whether a channel operation is a send. -/
def ChanOp.isSend : ChanOp → Bool
  | ChanOp.send _ => true
  | ChanOp.close => false

/-! ## Basic facts about the embedding -/

theorem toDuration_intCast (n : Int) (h1 : MinInt64 ≤ n) (h2 : n ≤ MaxInt64) :
    toDuration (n : ℚ) = n := by
  simp [toDuration, h1, h2]

theorem toDuration_intCast_large (n : Int) (h : MaxInt64 < n) :
    toDuration (n : ℚ) = MinInt64 := by
  have : ¬ n ≤ MaxInt64 := not_le.2 h
  simp [toDuration, this]

theorem mdur_of_pos {duration : Int} (h : 0 < duration) :
    mdur duration = Seconds duration := by
  simp [mdur, h]

theorem Seconds_pos {d : Int} (h : 0 < d) : 0 < Seconds d := by
  have : (0 : ℚ) < (d : ℚ) := by exact_mod_cast h
  unfold Seconds
  positivity

theorem mdur_pos {duration : Int} (h : 0 < duration) : 0 < mdur duration := by
  rw [mdur_of_pos h]; exact Seconds_pos h

theorem mdur_nonneg (duration : Int) : 0 ≤ mdur duration := by
  by_cases h : 0 < duration
  · exact (mdur_pos h).le
  · simp [mdur, h]

theorem epoch_float_eq {duration : Int} (h : 0 < duration) :
    (1000000000 * mdur duration * (m + k - 1) / k : ℚ) = ((21 * duration : Int) : ℚ) := by
  rw [mdur_of_pos h]
  simp only [Seconds, m, k]
  push_cast
  ring

theorem sdur_of_pos {duration : Int} (h : 0 < duration) (hr : 21 * duration ≤ MaxInt64) :
    sdur duration = max (21 * duration) 600000000000 := by
  have hlo : MinInt64 ≤ 21 * duration := by unfold MinInt64; omega
  simp only [sdur, h, gt_iff_lt, if_true, epoch_float_eq h,
    toDuration_intCast _ hlo hr, Minute, Second]
  split_ifs with h1
  · rw [max_eq_right (by omega)]; norm_num
  · rw [max_eq_left (by omega)]

theorem sdur_of_large {duration : Int} (h : 0 < duration) (hr : MaxInt64 < 21 * duration) :
    sdur duration = 600000000000 := by
  simp only [sdur, h, gt_iff_lt, if_true, epoch_float_eq h,
    toDuration_intCast_large _ hr, Minute, Second, MinInt64]
  norm_num

theorem sdur_ge_ten_minutes {duration : Int} (h : 0 < duration) :
    10 * Minute ≤ sdur duration := by
  have hM : (10 * Minute : Int) = 600000000000 := by norm_num [Minute, Second]
  rw [hM]
  rcases le_or_lt (21 * duration) MaxInt64 with hr | hr
  · rw [sdur_of_pos h hr]; exact le_max_right _ _
  · rw [sdur_of_large h hr]

theorem sdur_nonneg (duration : Int) : 0 ≤ sdur duration := by
  by_cases h : 0 < duration
  · have := sdur_ge_ten_minutes h
    have hM : (10 * Minute : Int) = 600000000000 := by norm_num [Minute, Second]
    omega
  · simp [sdur, h]

theorem find_eq (s : State) (key : String) :
    find s key = match prior s key with
      | some x => (x, true)
      | none => (info.zero, false) := by
  unfold find prior mapGet
  cases h1 : s.hinfo key <;> cases h2 : s.cinfo key <;> simp

theorem estimate_eq (duration : Int) (s : State) (key : String) (now : Int) :
    estimate duration s key now = match prior s key with
      | some x => decay x now
      | none => m * mdur duration := by
  unfold estimate
  rw [find_eq]
  cases h : prior s key <;> simp [decay, Sub]

theorem Admit_dur (duration : Int) (s : State) (key : String) (now : Int) :
    (Admit duration s key now).dur = estimate duration s key now := by
  unfold Admit
  dsimp only
  split_ifs <;> rfl

theorem Admit_state (duration : Int) (s : State) (key : String) (now : Int) :
    (Admit duration s key now).state =
      { rotate duration s now with
        hinfo := mapSet (rotate duration s now).hinfo key
          { dur := estimate duration s key now, time := now } } := by
  unfold Admit
  dsimp only
  split_ifs <;> rfl

theorem Admit_allowed (duration : Int) (s : State) (key : String) (now : Int) :
    (Admit duration s key now).allowed = true ↔
      mdur duration ≤ estimate duration s key now := by
  unfold Admit Outcome.allowed
  dsimp only
  split_ifs with h
  · simp [h]
  · simpa using h

theorem prior_none_iff (s : State) (key : String) :
    prior s key = none ↔ s.hinfo key = none ∧ s.cinfo key = none := by
  unfold prior
  cases h : s.hinfo key <;> simp

theorem New_hinfo (duration start : Int) (key : String) :
    (New duration start).hinfo key = none := by
  unfold New; split_ifs <;> rfl

theorem New_cinfo (duration start : Int) (key : String) :
    (New duration start).cinfo key = none := by
  unfold New; split_ifs <;> rfl

/-! ## The decision of one rate check -/

/-- C1: with rate limiting enabled, the rate check reads the key in the current
generation and only on a miss in the previous one; a record found gives
`dur = k * (now - lastSeen) + (1 - k) * estimatedInterval`, no record gives
`dur = m * minInterval` (with `k = 1/100`, `m = 6/5`), and the request is allowed
exactly when `dur ≥ minInterval`. -/
theorem admit_decision (duration : Int) (hd : 0 < duration) (s : State)
    (key : String) (now : Int) :
    (Admit duration s key now).dur =
        (match s.hinfo key with
         | some x => 1 / 100 * Seconds (now - x.time) + (1 - 1 / 100) * x.dur
         | none =>
           match s.cinfo key with
           | some x => 1 / 100 * Seconds (now - x.time) + (1 - 1 / 100) * x.dur
           | none => 6 / 5 * Seconds duration) ∧
      ((Admit duration s key now).allowed = true ↔
        Seconds duration ≤ (Admit duration s key now).dur) := by
  refine ⟨?_, ?_⟩
  · rw [Admit_dur, estimate_eq, mdur_of_pos hd]
    unfold prior
    cases h1 : s.hinfo key with
    | some x => simp only [decay, k]; norm_num
    | none =>
      cases h2 : s.cinfo key with
      | some x => simp only [decay, k]; norm_num
      | none => simp only [m]; norm_num
  · rw [Admit_allowed, Admit_dur, mdur_of_pos hd]

theorem admit_decision_witness :
    (Admit 1000000000 (New 1000000000 0) "A" 0).dur =
        (match (New 1000000000 0).hinfo "A" with
         | some x => 1 / 100 * Seconds (0 - x.time) + (1 - 1 / 100) * x.dur
         | none =>
           match (New 1000000000 0).cinfo "A" with
           | some x => 1 / 100 * Seconds (0 - x.time) + (1 - 1 / 100) * x.dur
           | none => 6 / 5 * Seconds 1000000000) ∧
      ((Admit 1000000000 (New 1000000000 0) "A" 0).allowed = true ↔
        Seconds 1000000000 ≤ (Admit 1000000000 (New 1000000000 0) "A" 0).dur) :=
  admit_decision 1000000000 (by decide) (New 1000000000 0) "A" 0

/-- C2: with rate limiting enabled, a request whose key is in neither generation
is allowed (no error is returned) and the record stored for it carries the
estimate `m * minInterval`. -/
theorem fresh_client_allowed (duration : Int) (hd : 0 < duration) (s : State)
    (key : String) (now : Int) (hh : s.hinfo key = none) (hc : s.cinfo key = none) :
    (Admit duration s key now).allowed = true ∧
      (Admit duration s key now).err = none ∧
      (Admit duration s key now).dur = 6 / 5 * Seconds duration ∧
      (Admit duration s key now).state.hinfo key =
        some { dur := 6 / 5 * Seconds duration, time := now } := by
  have hp : prior s key = none := (prior_none_iff s key).2 ⟨hh, hc⟩
  have he : estimate duration s key now = 6 / 5 * Seconds duration := by
    rw [estimate_eq, hp, mdur_of_pos hd]; simp only [m]; norm_num
  have hpos := Seconds_pos hd
  have ha : (Admit duration s key now).allowed = true := by
    rw [Admit_allowed, he, mdur_of_pos hd]; linarith
  refine ⟨ha, ?_, ?_, ?_⟩
  · simpa [Outcome.allowed] using ha
  · rw [Admit_dur, he]
  · rw [Admit_state, he]; simp [mapSet]

theorem fresh_client_allowed_witness :
    (Admit 1000000000 (New 1000000000 0) "A" 5).allowed = true ∧
      (Admit 1000000000 (New 1000000000 0) "A" 5).err = none ∧
      (Admit 1000000000 (New 1000000000 0) "A" 5).dur = 6 / 5 * Seconds 1000000000 ∧
      (Admit 1000000000 (New 1000000000 0) "A" 5).state.hinfo "A" =
        some { dur := 6 / 5 * Seconds 1000000000, time := 5 } :=
  fresh_client_allowed 1000000000 (by decide) (New 1000000000 0) "A" 5 rfl rfl

/-- C5: the captured variables after a rate check. When `now` is after the epoch
deadline the previous generation becomes the old current one, the current one
holds only `key ↦ (dur, now)` and the deadline becomes `now + epochLength`;
otherwise the previous generation and the deadline are kept and the current
generation has `key` overwritten by `(dur, now)`. The record is written whether
or not the request is allowed, and `dur` comes from the lookup in the state
before the rotation. -/
theorem admit_state_update (duration : Int) (s : State) (key : String) (now : Int) :
    (Admit duration s key now).dur =
        (match prior s key with
         | some x => decay x now
         | none => m * mdur duration) ∧
      (Admit duration s key now).state =
        (if s.stime < now then
          { stime := now + sdur duration,
            hinfo := fun j =>
              if j = key then some ⟨(Admit duration s key now).dur, now⟩ else none,
            cinfo := s.hinfo }
        else
          { stime := s.stime,
            hinfo := fun j =>
              if j = key then some ⟨(Admit duration s key now).dur, now⟩ else s.hinfo j,
            cinfo := s.cinfo }) ∧
      (Admit duration s key now).state.hinfo key =
        some ⟨(Admit duration s key now).dur, now⟩ := by
  refine ⟨?_, ?_, ?_⟩
  · rw [Admit_dur, estimate_eq]
  · rw [Admit_state, Admit_dur]
    unfold rotate After Add mapSet emptyMap
    by_cases h : s.stime < now <;> simp [h]
  · rw [Admit_state, Admit_dur]; simp [mapSet]

/-! ## One step, seen from a key -/

theorem Admit_stime (duration : Int) (s : State) (key : String) (now : Int) :
    (Admit duration s key now).state.stime =
      if s.stime < now then now + sdur duration else s.stime := by
  rw [Admit_state]
  unfold rotate After Add
  by_cases h : s.stime < now <;> simp [h]

theorem Admit_cinfo (duration : Int) (s : State) (key : String) (now : Int) :
    (Admit duration s key now).state.cinfo =
      if s.stime < now then s.hinfo else s.cinfo := by
  rw [Admit_state]
  unfold rotate After
  by_cases h : s.stime < now <;> simp [h]

theorem Admit_hinfo_self (duration : Int) (s : State) (key : String) (now : Int) :
    (Admit duration s key now).state.hinfo key =
      some ⟨estimate duration s key now, now⟩ := by
  rw [Admit_state]; simp [mapSet]

theorem Admit_hinfo_other (duration : Int) (s : State) {key K : String} (now : Int)
    (h : key ≠ K) :
    (Admit duration s key now).state.hinfo K =
      if s.stime < now then none else s.hinfo K := by
  rw [Admit_state]
  unfold rotate After mapSet emptyMap
  have h' : ¬ K = key := fun e => h e.symm
  by_cases hr : s.stime < now <;> simp [hr, h']

theorem run_nil (duration : Int) (s : State) : run duration s [] = s := rfl

theorem run_cons (duration : Int) (s : State) (e : Event) (evs : List Event) :
    run duration s (e :: evs) = run duration (Admit duration s e.1 e.2).state evs := rfl

theorem run_append (duration : Int) (s : State) (xs ys : List Event) :
    run duration s (xs ++ ys) = run duration (run duration s xs) ys := by
  simp [run, List.foldl_append]

theorem rotations_cons (duration : Int) (s : State) (e : Event) (evs : List Event) :
    rotations duration s (e :: evs) =
      (if s.stime < e.2 then 1 else 0) +
        rotations duration (Admit duration s e.1 e.2).state evs := by
  simp [rotations, After]

/-- Requests of other keys act on the records of `K` only through rotations:
none leaves them in place, one moves the current record to the previous
generation, two or more drop them. -/
theorem run_other_keys (duration : Int) (K : String) :
    ∀ (evs : List Event) (s : State), (∀ e ∈ evs, e.1 ≠ K) →
      (run duration s evs).hinfo K =
          (if rotations duration s evs = 0 then s.hinfo K else none) ∧
        (run duration s evs).cinfo K =
          (if rotations duration s evs = 0 then s.cinfo K
           else if rotations duration s evs = 1 then s.hinfo K else none) := by
  intro evs
  induction evs with
  | nil => intro s _; simp [run_nil, rotations]
  | cons e evs ih =>
    intro s ho
    have he : e.1 ≠ K := ho e (List.mem_cons_self _ _)
    have ih' := ih (Admit duration s e.1 e.2).state
      (fun e' h' => ho e' (List.mem_cons_of_mem _ h'))
    rw [run_cons, rotations_cons, ih'.1, ih'.2, Admit_hinfo_other duration s e.2 he,
      Admit_cinfo]
    by_cases hr : s.stime < e.2
    · simp only [hr, if_true]
      by_cases h0 : rotations duration (Admit duration s e.1 e.2).state evs = 0
      · simp [h0]
      · have h1 : 1 + rotations duration (Admit duration s e.1 e.2).state evs ≠ 1 := by omega
        simp [h0, h1]
    · simp [hr]

theorem find_snd (s : State) (key : String) :
    (find s key).2 = (prior s key).isSome := by
  rw [find_eq]; cases prior s key <;> rfl

theorem prior_run_other_keys (duration : Int) (K : String) (evs : List Event) (s : State)
    (x : info) (hx : s.hinfo K = some x) (ho : ∀ e ∈ evs, e.1 ≠ K) :
    prior (run duration s evs) K =
      if rotations duration s evs ≤ 1 then some x else none := by
  obtain ⟨h1, h2⟩ := run_other_keys duration K evs s ho
  unfold prior
  rw [h1, h2, hx]
  by_cases h0 : rotations duration s evs = 0
  · simp [h0]
  · by_cases h1 : rotations duration s evs = 1
    · simp [h1]
    · have : ¬ rotations duration s evs ≤ 1 := by omega
      simp [h0, h1, this]

/-! ## Rotation -/

/-- C6: let `K` have the record `x` in the current generation and let requests of
other keys follow. After exactly one rotation the record is gone from the current
generation, sits in the previous one, and a rate check for `K` decays it; after
two rotations (or more) no record is left and the rate check for `K` uses the
fresh seed `m * minInterval`. -/
theorem rotation_property (duration : Int) (s : State) (K : String) (x : info)
    (evs : List Event) (now : Int) (hx : s.hinfo K = some x)
    (ho : ∀ e ∈ evs, e.1 ≠ K) :
    (run duration s evs).hinfo K =
        (if rotations duration s evs = 0 then some x else none) ∧
      (run duration s evs).cinfo K =
        (if rotations duration s evs = 0 then s.cinfo K
         else if rotations duration s evs = 1 then some x else none) ∧
      (find (run duration s evs) K).2 = decide (rotations duration s evs ≤ 1) ∧
      (Admit duration (run duration s evs) K now).dur =
        (if rotations duration s evs ≤ 1 then
          k * Seconds (now - x.time) + (1 - k) * x.dur
         else m * mdur duration) := by
  obtain ⟨h1, h2⟩ := run_other_keys duration K evs s ho
  have hp := prior_run_other_keys duration K evs s x hx ho
  refine ⟨by rw [h1, hx], by rw [h2, hx], ?_, ?_⟩
  · rw [find_snd, hp]
    by_cases h : rotations duration s evs ≤ 1 <;> simp [h]
  · rw [Admit_dur, estimate_eq, hp]
    by_cases h : rotations duration s evs ≤ 1 <;> simp [h, decay]

/-- C9: a rate check that rotates sets an epoch deadline strictly greater than
the old one and one that does not rotate keeps it; along any sequence of rate
checks the deadline never decreases, and it has strictly increased as soon as
one rotation took place. -/
theorem stime_monotone (duration : Int) (s : State) :
    (∀ (key : String) (now : Int),
        if s.stime < now then s.stime < (Admit duration s key now).state.stime
        else (Admit duration s key now).state.stime = s.stime) ∧
      ∀ evs : List Event,
        s.stime ≤ (run duration s evs).stime ∧
          if rotations duration s evs = 0 then (run duration s evs).stime = s.stime
          else s.stime < (run duration s evs).stime := by
  have hs := sdur_nonneg duration
  have step : ∀ (s : State) (key : String) (now : Int),
      if s.stime < now then s.stime < (Admit duration s key now).state.stime
      else (Admit duration s key now).state.stime = s.stime := by
    intro s key now
    rw [Admit_stime]
    by_cases h : s.stime < now
    · simp only [h, if_true]; omega
    · simp only [h, if_false]
  refine ⟨step s, ?_⟩
  intro evs
  induction evs generalizing s with
  | nil => simp [run_nil, rotations]
  | cons e evs ih =>
    have h1 := step s e.1 e.2
    obtain ⟨h2, h3⟩ := ih (Admit duration s e.1 e.2).state
    rw [run_cons, rotations_cons]
    by_cases hr : s.stime < e.2
    · simp only [hr, if_true] at h1
      have hne : 1 + rotations duration (Admit duration s e.1 e.2).state evs ≠ 0 := by omega
      simp only [hr, if_true, hne, if_false]
      omega
    · simp only [hr, if_false] at h1
      simp only [hr, if_false, zero_add]
      refine ⟨by omega, ?_⟩
      by_cases h0 : rotations duration (Admit duration s e.1 e.2).state evs = 0
      · simp only [h0, if_true] at h3 ⊢; omega
      · simp only [h0, if_false] at h3 ⊢; omega

/-! ## Concrete evaluations, `minInterval` one second -/

theorem sdur_one_second : sdur 1000000000 = 600000000000 := by
  rw [sdur_of_pos (by decide) (by decide)]; decide

theorem mdur_one_second : mdur 1000000000 = 1 := by
  rw [mdur_of_pos (by decide)]; norm_num [Seconds]

theorem rotation_property_witness :
    ((Admit 1000000000 (New 1000000000 0) "K" 0).state.hinfo "K" =
        some ⟨m * mdur 1000000000, 0⟩ ∧
      ∀ e ∈ [(("J", 600000000001) : Event)], e.1 ≠ "K") ∧
    ((run 1000000000 (Admit 1000000000 (New 1000000000 0) "K" 0).state
          [("J", 600000000001)]).hinfo "K" =
        (if rotations 1000000000 (Admit 1000000000 (New 1000000000 0) "K" 0).state
            [("J", 600000000001)] = 0 then some ⟨m * mdur 1000000000, 0⟩ else none) ∧
      (run 1000000000 (Admit 1000000000 (New 1000000000 0) "K" 0).state
          [("J", 600000000001)]).cinfo "K" =
        (if rotations 1000000000 (Admit 1000000000 (New 1000000000 0) "K" 0).state
            [("J", 600000000001)] = 0 then
          (Admit 1000000000 (New 1000000000 0) "K" 0).state.cinfo "K"
         else if rotations 1000000000 (Admit 1000000000 (New 1000000000 0) "K" 0).state
            [("J", 600000000001)] = 1 then some ⟨m * mdur 1000000000, 0⟩ else none) ∧
      (find (run 1000000000 (Admit 1000000000 (New 1000000000 0) "K" 0).state
          [("J", 600000000001)]) "K").2 =
        decide (rotations 1000000000 (Admit 1000000000 (New 1000000000 0) "K" 0).state
          [("J", 600000000001)] ≤ 1) ∧
      (Admit 1000000000 (run 1000000000 (Admit 1000000000 (New 1000000000 0) "K" 0).state
          [("J", 600000000001)]) "K" 700000000000).dur =
        (if rotations 1000000000 (Admit 1000000000 (New 1000000000 0) "K" 0).state
            [("J", 600000000001)] ≤ 1 then
          k * Seconds (700000000000 - (⟨m * mdur 1000000000, 0⟩ : info).time) +
            (1 - k) * (⟨m * mdur 1000000000, 0⟩ : info).dur
         else m * mdur 1000000000)) :=
  ⟨⟨by simp [Admit_state, mapSet, estimate, find, mapGet, New, emptyMap], by decide⟩,
    rotation_property 1000000000 (Admit 1000000000 (New 1000000000 0) "K" 0).state "K"
      ⟨m * mdur 1000000000, 0⟩ [("J", 600000000001)] 700000000000
      (by simp [Admit_state, mapSet, estimate, find, mapGet, New, emptyMap]) (by decide)⟩

/-! ## Forgetting a client -/

/-- C7, as stated, fails: two epoch lengths elapsed since `K` was last seen do
not drop its record. With `minInterval` one second, a limiter built at time `0`,
`K` seen at `0` and next at `1200 s` (twice the epoch length of `600 s`), the
second rate check still finds the record. -/
theorem two_epochs_elapsed_not_dropped :
    ¬ ∀ (duration start : Int) (pre mid : List Event) (K : String) (t now : Int),
        0 < duration → nondecreasing (pre ++ (K, t) :: mid ++ [(K, now)]) →
        (∀ e ∈ mid, e.1 ≠ K) → 2 * sdur duration ≤ now - t →
        (find (run duration (New duration start) (pre ++ (K, t) :: mid)) K).2 = false ∧
          (Admit duration (run duration (New duration start) (pre ++ (K, t) :: mid))
            K now).dur = m * mdur duration := by
  intro h
  have h1 := (h 1000000000 0 [] [] "K" 0 1200000000000 (by decide)
    (by simp [nondecreasing]) (by simp) (by rw [sdur_one_second]; decide)).1
  simp [run, Admit_state, find, mapGet, mapSet] at h1

/-- C7, amended: after a rate check for `K` at time `t` followed by requests of
other keys, the next rate check for `K` finds no prior record exactly when at
least two rotations took place in between, and then uses the fresh seed
`m * minInterval`; with fewer rotations it decays the record written at `t`,
however much time has elapsed. -/
theorem dropped_iff_two_rotations (duration : Int) (s0 : State) (K : String) (t : Int)
    (mid : List Event) (now : Int) (ho : ∀ e ∈ mid, e.1 ≠ K) :
    ((find (run duration (Admit duration s0 K t).state mid) K).2 = false ↔
        2 ≤ rotations duration (Admit duration s0 K t).state mid) ∧
      (Admit duration (run duration (Admit duration s0 K t).state mid) K now).dur =
        (if 2 ≤ rotations duration (Admit duration s0 K t).state mid then
          m * mdur duration
         else k * Seconds (now - t) + (1 - k) * (Admit duration s0 K t).dur) := by
  have hx := Admit_hinfo_self duration s0 K t
  have hp := prior_run_other_keys duration K mid _ _ hx ho
  rw [find_snd, Admit_dur (s := run duration (Admit duration s0 K t).state mid),
    estimate_eq, hp, Admit_dur]
  generalize rotations duration (Admit duration s0 K t).state mid = n
  by_cases h : n ≤ 1
  · have h2 : ¬ 2 ≤ n := by omega
    simp [h, h2, decay]
  · have h2 : 2 ≤ n := by omega
    simp [h, h2]

theorem dropped_iff_two_rotations_witness :
    (∀ e ∈ [(("J", 600000000001) : Event), ("J", 1200000000002)], e.1 ≠ "K") ∧
    (((find (run 1000000000 (Admit 1000000000 (New 1000000000 0) "K" 600000000000).state
          [("J", 600000000001), ("J", 1200000000002)]) "K").2 = false ↔
        2 ≤ rotations 1000000000 (Admit 1000000000 (New 1000000000 0) "K" 600000000000).state
          [("J", 600000000001), ("J", 1200000000002)]) ∧
      (Admit 1000000000
          (run 1000000000 (Admit 1000000000 (New 1000000000 0) "K" 600000000000).state
            [("J", 600000000001), ("J", 1200000000002)]) "K" 1200000000002).dur =
        (if 2 ≤ rotations 1000000000
            (Admit 1000000000 (New 1000000000 0) "K" 600000000000).state
            [("J", 600000000001), ("J", 1200000000002)] then
          m * mdur 1000000000
         else k * Seconds (1200000000002 - 600000000000) +
           (1 - k) * (Admit 1000000000 (New 1000000000 0) "K" 600000000000).dur)) :=
  ⟨by decide,
    dropped_iff_two_rotations 1000000000 (New 1000000000 0) "K" 600000000000
      [("J", 600000000001), ("J", 1200000000002)] 1200000000002 (by decide)⟩

theorem exists_after_of_rotation (duration : Int) :
    ∀ (evs : List Event) (s : State), 1 ≤ rotations duration s evs →
      ∃ e ∈ evs, s.stime < e.2 := by
  intro evs
  induction evs with
  | nil => intro s h; simp [rotations] at h
  | cons e evs ih =>
    intro s h
    by_cases hr : s.stime < e.2
    · exact ⟨e, List.mem_cons_self _ _, hr⟩
    · rw [rotations_cons] at h
      simp only [hr, if_false, zero_add] at h
      obtain ⟨e', he', hlt⟩ := ih _ h
      rw [Admit_stime] at hlt
      simp only [hr, if_false] at hlt
      exact ⟨e', List.mem_cons_of_mem _ he', hlt⟩

theorem exists_late_of_two_rotations (duration : Int) (lo : Int) :
    ∀ (evs : List Event) (s : State), (∀ e ∈ evs, lo ≤ e.2) →
      2 ≤ rotations duration s evs → ∃ e ∈ evs, lo + sdur duration < e.2 := by
  intro evs
  induction evs with
  | nil => intro s _ h; simp [rotations] at h
  | cons e evs ih =>
    intro s hlo h
    have hlo' : ∀ e' ∈ evs, lo ≤ e'.2 := fun e' h' => hlo e' (List.mem_cons_of_mem _ h')
    rw [rotations_cons] at h
    by_cases hr : s.stime < e.2
    · simp only [hr, if_true] at h
      obtain ⟨e', he', hlt⟩ := exists_after_of_rotation duration evs
        (Admit duration s e.1 e.2).state (by omega)
      rw [Admit_stime] at hlt
      simp only [hr, if_true] at hlt
      have := hlo e (List.mem_cons_self _ _)
      exact ⟨e', List.mem_cons_of_mem _ he', by omega⟩
    · simp only [hr, if_false, zero_add] at h
      obtain ⟨e', he', hlt⟩ := ih _ hlo' h
      exact ⟨e', List.mem_cons_of_mem _ he', hlt⟩

/-- C8, as stated, fails: a forgotten client need not have been silent for two
epoch lengths. With `minInterval` one second (epoch length `600 s`) and a limiter
built at time `0`: `K` is seen at `600 s`, another key at `600 s + 1 ns` and at
`1200 s + 2 ns` (two rotations), and `K` again at `1200 s + 2 ns` finds no record
although only `600 s + 2 ns` have elapsed. -/
theorem forgotten_before_two_epochs :
    ¬ ∀ (duration start : Int) (pre mid : List Event) (K : String) (t now : Int),
        0 < duration → nondecreasing (pre ++ (K, t) :: mid ++ [(K, now)]) →
        (∀ e ∈ mid, e.1 ≠ K) →
        (find (run duration (New duration start) (pre ++ (K, t) :: mid)) K).2 = false →
        2 * sdur duration ≤ now - t := by
  intro h
  have h1 := h 1000000000 0 [] [("J", 600000000001), ("J", 1200000000002)] "K"
    600000000000 1200000000002 (by decide) (by simp [nondecreasing]) (by decide)
    (by simp [run, Admit_state, find, mapGet, mapSet, rotate, After, Add, New,
      sdur_one_second, emptyMap])
  rw [sdur_one_second] at h1
  omega

/-- C8, amended: along non-decreasing clock readings, if the next rate check for
`K` after the one at time `t` finds no prior record, then at least two rotations
took place in between and more than one epoch length has elapsed,
`now - t > epochLength`. -/
theorem forgotten_after_one_epoch (duration : Int) (s0 : State) (K : String) (t : Int)
    (mid : List Event) (now : Int) (ho : ∀ e ∈ mid, e.1 ≠ K)
    (hnd : nondecreasing ((K, t) :: mid ++ [(K, now)]))
    (hf : (find (run duration (Admit duration s0 K t).state mid) K).2 = false) :
    2 ≤ rotations duration (Admit duration s0 K t).state mid ∧
      sdur duration < now - t := by
  have h2 : 2 ≤ rotations duration (Admit duration s0 K t).state mid := by
    have hx := Admit_hinfo_self duration s0 K t
    have hp := prior_run_other_keys duration K mid _ _ hx ho
    rw [find_snd, hp] at hf
    by_contra hc
    have : rotations duration (Admit duration s0 K t).state mid ≤ 1 := by omega
    simp [this] at hf
  refine ⟨h2, ?_⟩
  unfold nondecreasing at hnd
  simp only [List.cons_append, List.map_cons, List.map_append, List.map_nil,
    List.pairwise_cons, List.pairwise_append, List.mem_append, List.mem_map,
    List.mem_singleton] at hnd
  obtain ⟨hfirst, _, _, hlast⟩ := hnd
  have hlo : ∀ e ∈ mid, t ≤ e.2 := fun e he => hfirst e.2 (Or.inl ⟨e, he, rfl⟩)
  obtain ⟨e, he, hlt⟩ := exists_late_of_two_rotations duration t mid _ hlo h2
  have := hlast e.2 ⟨e, he, rfl⟩ now rfl
  omega

theorem forgotten_after_one_epoch_witness :
    ((∀ e ∈ [(("J", 600000000001) : Event), ("J", 1200000000002)], e.1 ≠ "K") ∧
      nondecreasing (("K", 600000000000) ::
        [(("J", 600000000001) : Event), ("J", 1200000000002)] ++
          [("K", 1200000000002)]) ∧
      (find (run 1000000000 (Admit 1000000000 (New 1000000000 0) "K" 600000000000).state
        [("J", 600000000001), ("J", 1200000000002)]) "K").2 = false) ∧
    (2 ≤ rotations 1000000000 (Admit 1000000000 (New 1000000000 0) "K" 600000000000).state
        [("J", 600000000001), ("J", 1200000000002)] ∧
      sdur 1000000000 < 1200000000002 - 600000000000) :=
  ⟨⟨by decide, by simp [nondecreasing],
      by simp [run, Admit_state, find, mapGet, mapSet, rotate, After, Add, New,
        sdur_one_second, emptyMap]⟩,
    forgotten_after_one_epoch 1000000000 (New 1000000000 0) "K" 600000000000
      [("J", 600000000001), ("J", 1200000000002)] 1200000000002 (by decide)
      (by simp [nondecreasing])
      (by simp [run, Admit_state, find, mapGet, mapSet, rotate, After, Add, New,
        sdur_one_second, emptyMap])⟩

/-! ## Sign of the stored estimates -/

theorem stored_after_Admit (duration : Int) (s : State) (key : String) (now : Int)
    (j : String) (y : info)
    (h : (Admit duration s key now).state.hinfo j = some y ∨
      (Admit duration s key now).state.cinfo j = some y) :
    y = ⟨estimate duration s key now, now⟩ ∨ s.hinfo j = some y ∨ s.cinfo j = some y := by
  rw [Admit_cinfo] at h
  by_cases hj : j = key
  · subst hj
    rw [Admit_hinfo_self] at h
    rcases h with h | h
    · left; exact (Option.some.inj h).symm
    · right
      by_cases hr : s.stime < now
      · simp only [hr, if_true] at h; exact Or.inl h
      · simp only [hr, if_false] at h; exact Or.inr h
  · rw [Admit_hinfo_other duration s now (fun e => hj e.symm)] at h
    right
    by_cases hr : s.stime < now
    · simp only [hr, if_true] at h
      rcases h with h | h
      · exact absurd h (by simp)
      · exact Or.inl h
    · simp only [hr, if_false] at h; exact h

theorem prior_stored (s : State) (key : String) (x : info) (h : prior s key = some x) :
    s.hinfo key = some x ∨ s.cinfo key = some x := by
  unfold prior at h
  cases h1 : s.hinfo key with
  | some y => rw [h1] at h; exact Or.inl h
  | none => rw [h1] at h; exact Or.inr h

theorem estimate_nonneg (duration : Int) (s : State) (key : String) (now : Int)
    (h : ∀ x, prior s key = some x → 0 ≤ x.dur ∧ x.time ≤ now) :
    0 ≤ estimate duration s key now := by
  rw [estimate_eq]
  cases hp : prior s key with
  | none =>
    have := mdur_nonneg duration
    simp only [m]
    positivity
  | some x =>
    obtain ⟨h1, h2⟩ := h x hp
    have h3 : (0 : ℚ) ≤ ((now - x.time : Int) : ℚ) := by
      exact_mod_cast (by omega : 0 ≤ now - x.time)
    have h4 : 0 ≤ Seconds (now - x.time) := by unfold Seconds; positivity
    show 0 ≤ k * Seconds (now - x.time) + (1 - k) * x.dur
    exact add_nonneg (mul_nonneg (by norm_num [k]) h4) (mul_nonneg (by norm_num [k]) h1)

theorem run_nonneg (duration : Int) :
    ∀ (evs : List Event) (s : State), nondecreasing evs →
      (∀ j y, (s.hinfo j = some y ∨ s.cinfo j = some y) →
        0 ≤ y.dur ∧ ∀ e ∈ evs, y.time ≤ e.2) →
      ∀ j y, ((run duration s evs).hinfo j = some y ∨
        (run duration s evs).cinfo j = some y) → 0 ≤ y.dur := by
  intro evs
  induction evs with
  | nil => intro s _ hs j y hy; exact (hs j y hy).1
  | cons e evs ih =>
    intro s hnd hs j y hy
    rw [run_cons] at hy
    unfold nondecreasing at hnd
    simp only [List.map_cons, List.pairwise_cons, List.mem_map] at hnd
    obtain ⟨hle, hrest⟩ := hnd
    refine ih (Admit duration s e.1 e.2).state hrest ?_ j y hy
    intro j' y' hy'
    rcases stored_after_Admit duration s e.1 e.2 j' y' hy' with h | h
    · subst h
      refine ⟨?_, fun e' he' => hle e'.2 ⟨e', he', rfl⟩⟩
      apply estimate_nonneg
      intro x hx
      obtain ⟨h1, h2⟩ := hs e.1 x (prior_stored s e.1 x hx)
      exact ⟨h1, h2 e (List.mem_cons_self _ _)⟩
    · obtain ⟨h1, h2⟩ := hs j' y' h
      exact ⟨h1, fun e' he' => h2 e' (List.mem_cons_of_mem _ he')⟩

/-- C10, as stated, fails: with arbitrary clock readings a stored estimate can be
negative. With `minInterval` one second, key `A` seen at `200 s` and then with
the reading `0`, the second rate check stores
`0.010 * (-200) + 0.990 * 1.2 = -0.812`. -/
theorem negative_estimate_stored :
    ¬ ∀ (duration start : Int) (evs : List Event) (key : String) (x : info),
        0 < duration →
        ((run duration (New duration start) evs).hinfo key = some x ∨
          (run duration (New duration start) evs).cinfo key = some x) →
        0 ≤ x.dur := by
  intro h
  have h1 := h 1000000000 0 [("A", 200000000000), ("A", 0)] "A" ⟨-203 / 250, 0⟩
    (by decide)
    (by
      left
      simp [run, Admit_state, estimate, find, mapGet, mapSet, rotate, After, Add, New,
        sdur_one_second, mdur_one_second, emptyMap, Sub, Seconds, k, m]
      norm_num)
  norm_num at h1

/-- C10, amended: in every state reached from the initial state by rate checks
whose clock readings never go back, every estimate stored in the current or the
previous generation is non-negative. -/
theorem estimates_nonneg (duration start : Int) (evs : List Event)
    (hnd : nondecreasing evs) (key : String) (x : info)
    (hx : (run duration (New duration start) evs).hinfo key = some x ∨
      (run duration (New duration start) evs).cinfo key = some x) :
    0 ≤ x.dur := by
  refine run_nonneg duration evs (New duration start) hnd ?_ key x hx
  intro j y hy
  rw [New_hinfo, New_cinfo] at hy
  simp at hy

theorem estimates_nonneg_witness :
    (nondecreasing [("A", 0), ("A", 100000000)] ∧
      ((run 1000000000 (New 1000000000 0) [("A", 0), ("A", 100000000)]).hinfo "A" =
          some ⟨1189 / 1000, 100000000⟩ ∨
        (run 1000000000 (New 1000000000 0) [("A", 0), ("A", 100000000)]).cinfo "A" =
          some ⟨1189 / 1000, 100000000⟩)) ∧
    0 ≤ (⟨1189 / 1000, 100000000⟩ : info).dur :=
  ⟨⟨by simp [nondecreasing], by
      left
      simp [run, Admit_state, estimate, find, mapGet, mapSet, rotate, After, Add, New,
        sdur_one_second, mdur_one_second, emptyMap, Sub, Seconds, k, m]
      norm_num⟩,
    estimates_nonneg 1000000000 0 [("A", 0), ("A", 100000000)] (by simp [nondecreasing])
      "A" ⟨1189 / 1000, 100000000⟩ (by
        left
        simp [run, Admit_state, estimate, find, mapGet, mapSet, rotate, After, Add, New,
          sdur_one_second, mdur_one_second, emptyMap, Sub, Seconds, k, m]
        norm_num)⟩

/-! ## A burst at a constant gap -/

theorem seed_eq (duration : Int) : m * mdur duration = mdur duration + mdur duration / 5 := by
  unfold m; ring

theorem constGap_succ (key : String) (t0 g : Int) (n : Nat) :
    constGap key t0 g (n + 1) = constGap key t0 g n ++ [(key, t0 + (n : Int) * g)] := by
  simp [constGap, List.range_succ]

theorem Admit_rejected (duration : Int) (s : State) (key : String) (now : Int) :
    (Admit duration s key now).allowed = false ↔
      estimate duration s key now < mdur duration := by
  rw [← not_le, ← Admit_allowed]
  cases (Admit duration s key now).allowed <;> simp

theorem prior_of_hinfo (s : State) (key : String) (x : info) (h : s.hinfo key = some x) :
    prior s key = some x := by
  unfold prior; rw [h]

/-- The estimate of the request number `n` (counted from `0`) of a fresh client
that sends at a constant gap `g`. -/
theorem burst_dur (duration : Int) (s : State) (K : String) (t0 g : Int)
    (hp : prior s K = none) (n : Nat) :
    estimate duration (run duration s (constGap K t0 g n)) K (t0 + (n : Int) * g) =
      Seconds g + (1 - k) ^ n * (m * mdur duration - Seconds g) := by
  induction n with
  | zero =>
    have : run duration s (constGap K t0 g 0) = s := rfl
    rw [this, estimate_eq, hp]
    simp
  | succ n ih =>
    rw [constGap_succ, run_append]
    have hrun : run duration (run duration s (constGap K t0 g n)) [(K, t0 + (n : Int) * g)] =
        (Admit duration (run duration s (constGap K t0 g n)) K (t0 + (n : Int) * g)).state :=
      rfl
    rw [hrun, estimate_eq,
      prior_of_hinfo _ K _ (Admit_hinfo_self duration _ K (t0 + (n : Int) * g)), ih]
    have hg : t0 + ((n + 1 : Nat) : Int) * g - (t0 + (n : Int) * g) = g := by
      push_cast; ring
    simp only [decay, hg]
    ring

/-- C4: with rate limiting enabled and a constant gap `g < minInterval`, the
first request of a fresh client is allowed and there is an `N` from which on
every request of the burst (the one numbered `N` and all later ones) is
rejected. -/
theorem burst_eventually_rejected (duration : Int) (hd : 0 < duration) (g : Int)
    (hg : g < duration) (s : State) (K : String) (t0 : Int)
    (hh : s.hinfo K = none) (hc : s.cinfo K = none) :
    (Admit duration s K t0).allowed = true ∧
      ∃ N : Nat, ∀ n : Nat, N ≤ n →
        (Admit duration (run duration s (constGap K t0 g n)) K
          (t0 + (n : Int) * g)).allowed = false := by
  have hp : prior s K = none := (prior_none_iff s K).2 ⟨hh, hc⟩
  have hpos := mdur_pos hd
  have hG : Seconds g < mdur duration := by
    rw [mdur_of_pos hd]
    unfold Seconds
    have : (g : ℚ) < (duration : ℚ) := by exact_mod_cast hg
    linarith
  refine ⟨?_, ?_⟩
  · rw [Admit_allowed, estimate_eq, hp]
    show mdur duration ≤ m * mdur duration
    rw [seed_eq]; linarith
  · have hM : 0 < m * mdur duration - Seconds g := by rw [seed_eq]; linarith
    have ha : 0 < (mdur duration - Seconds g) / (m * mdur duration - Seconds g) :=
      div_pos (by linarith) hM
    obtain ⟨N, hN⟩ := exists_pow_lt_of_lt_one ha (by norm_num [k] : (1 - k : ℚ) < 1)
    refine ⟨N, fun n hn => ?_⟩
    rw [Admit_rejected, burst_dur duration s K t0 g hp n]
    have hle : (1 - k : ℚ) ^ n ≤ (1 - k) ^ N :=
      pow_le_pow_of_le_one (by norm_num [k]) (by norm_num [k]) hn
    have hlt : (1 - k : ℚ) ^ n < (mdur duration - Seconds g) / (m * mdur duration - Seconds g) :=
      lt_of_le_of_lt hle hN
    have := (lt_div_iff₀ hM).1 hlt
    linarith

theorem burst_eventually_rejected_witness :
    ((0 : Int) < 1000000000 ∧ (50000000 : Int) < 1000000000 ∧
      (New 1000000000 0).hinfo "A" = none ∧ (New 1000000000 0).cinfo "A" = none) ∧
    ((Admit 1000000000 (New 1000000000 0) "A" 0).allowed = true ∧
      ∃ N : Nat, ∀ n : Nat, N ≤ n →
        (Admit 1000000000 (run 1000000000 (New 1000000000 0) (constGap "A" 0 50000000 n))
          "A" (0 + (n : Int) * 50000000)).allowed = false) :=
  ⟨⟨by decide, by decide, rfl, rfl⟩,
    burst_eventually_rejected 1000000000 (by decide) 50000000 (by decide)
      (New 1000000000 0) "A" 0 rfl rfl⟩

/-! ## A well spaced client -/

theorem prior_after_other (duration : Int) (s : State) {key K : String} (now : Int)
    (h : key ≠ K) (x : info)
    (hx : prior (Admit duration s key now).state K = some x) : prior s K = some x := by
  unfold prior at hx
  rw [Admit_hinfo_other duration s now h, Admit_cinfo] at hx
  by_cases hr : s.stime < now
  · simp only [hr, if_true] at hx
    exact prior_of_hinfo s K x hx
  · simp only [hr, if_false] at hx
    exact hx

theorem estimate_ge_of_spaced (duration : Int) (s : State) (K : String)
    (last : Option Int) (now : Int)
    (hrec : ∀ x, (s.hinfo K = some x ∨ s.cinfo K = some x) → mdur duration ≤ x.dur)
    (hlast : ∀ x, prior s K = some x → last = some x.time)
    (hgap : gapOk duration last now = true) :
    mdur duration ≤ estimate duration s K now := by
  have hm := mdur_nonneg duration
  rw [estimate_eq]
  cases hp : prior s K with
  | none =>
    show mdur duration ≤ m * mdur duration
    rw [seed_eq]; linarith
  | some x =>
    have h1 := hrec x (prior_stored s K x hp)
    rw [hlast x hp] at hgap
    have h2 : mdur duration / (1 - k) ≤ Seconds (now - x.time) := by
      simpa [gapOk] using hgap
    have h3 : mdur duration ≤ (1 - k) * Seconds (now - x.time) := by
      have hk : (0 : ℚ) < 1 - k := by norm_num [k]
      have := (div_le_iff₀ hk).1 h2
      linarith
    show mdur duration ≤ k * Seconds (now - x.time) + (1 - k) * x.dur
    have hk1 : (1 - k : ℚ) = 99 / 100 := by norm_num [k]
    have hk2 : (k : ℚ) = 1 / 100 := by norm_num [k]
    rw [hk1] at h3 ⊢
    rw [hk2]
    linarith

/-- The invariant behind the spacing property, carried along a run: every record
of `K` holds an estimate of at least `minInterval`, and the record a rate check
would find for `K` was written at the latest request of `K`. -/
theorem spaced_run (duration : Int) (K : String) :
    ∀ (evs : List Event) (s : State) (last : Option Int),
      spaced duration K last evs = true →
      (∀ x, (s.hinfo K = some x ∨ s.cinfo K = some x) → mdur duration ≤ x.dur) →
      (∀ x, prior s K = some x → last = some x.time) →
      (∀ pre e post, evs = pre ++ e :: post → e.1 = K →
          mdur duration ≤ estimate duration (run duration s pre) K e.2) ∧
        (∀ pre post, evs = pre ++ post → ∀ x,
          ((run duration s pre).hinfo K = some x ∨ (run duration s pre).cinfo K = some x) →
            mdur duration ≤ x.dur) := by
  intro evs
  induction evs with
  | nil =>
    intro s last _ hrec _
    refine ⟨?_, ?_⟩
    · intro pre e post h; simp at h
    · intro pre post h x hx
      have hpre : pre = [] := by
        cases pre with
        | nil => rfl
        | cons a l => simp at h
      subst hpre
      exact hrec x hx
  | cons e0 evs ih =>
    intro s last hsp hrec hlast
    -- the state and the latest request of `K` after the head request
    have key : ∃ last1, spaced duration K last1 evs = true ∧
        (∀ x, ((Admit duration s e0.1 e0.2).state.hinfo K = some x ∨
          (Admit duration s e0.1 e0.2).state.cinfo K = some x) → mdur duration ≤ x.dur) ∧
        (∀ x, prior (Admit duration s e0.1 e0.2).state K = some x → last1 = some x.time) ∧
        (e0.1 = K → mdur duration ≤ estimate duration s K e0.2) := by
      by_cases he : e0.1 = K
      · have hsp' := hsp
        simp only [spaced, he, if_true, Bool.and_eq_true] at hsp'
        obtain ⟨hgap, hrest⟩ := hsp'
        have hest := estimate_ge_of_spaced duration s K last e0.2 hrec hlast hgap
        refine ⟨some e0.2, hrest, ?_, ?_, fun _ => hest⟩
        · intro x hx
          rcases stored_after_Admit duration s e0.1 e0.2 K x hx with h | h
          · rw [h, he]; exact hest
          · exact hrec x h
        · intro x hx
          rw [he] at hx
          rw [prior_of_hinfo _ K _ (Admit_hinfo_self duration s K e0.2)] at hx
          rw [← Option.some.inj hx]
      · have hsp' := hsp
        simp only [spaced, he, if_false] at hsp'
        refine ⟨last, hsp', ?_, ?_, fun h => absurd h he⟩
        · intro x hx
          rcases stored_after_Admit duration s e0.1 e0.2 K x hx with h | h
          · have hK := Admit_hinfo_other duration s e0.2 he
            have hc := Admit_cinfo duration s e0.1 e0.2
            rw [hK, hc] at hx
            by_cases hr : s.stime < e0.2
            · simp only [hr, if_true] at hx
              rcases hx with hx | hx
              · exact absurd hx (by simp)
              · exact hrec x (Or.inl hx)
            · simp only [hr, if_false] at hx
              exact hrec x hx
          · exact hrec x h
        · intro x hx
          exact hlast x (prior_after_other duration s e0.2 he x hx)
    obtain ⟨last1, h1, h2, h3, h4⟩ := key
    obtain ⟨ihA, ihB⟩ := ih (Admit duration s e0.1 e0.2).state last1 h1 h2 h3
    refine ⟨?_, ?_⟩
    · intro pre e post h he
      cases pre with
      | nil =>
        simp only [List.nil_append, List.cons.injEq] at h
        rw [← h.1] at he ⊢
        exact h4 he
      | cons a pre' =>
        simp only [List.cons_append, List.cons.injEq] at h
        rw [← h.1, run_cons]
        exact ihA pre' e post h.2 he
    · intro pre post h x hx
      cases pre with
      | nil => exact hrec x hx
      | cons a pre' =>
        simp only [List.cons_append, List.cons.injEq] at h
        rw [← h.1, run_cons] at hx
        exact ihB pre' post h.2 x hx

/-- C3: with rate limiting enabled, let a client `K` start fresh and let its
successive requests be at least `minInterval / (1 - k)` apart, with requests of
other keys (and the rotations they or `K` trigger) interleaved at will. Then
every request of `K` is allowed, with an estimate of at least `minInterval`, and
at every point of the run every record stored for `K` holds an estimate of at
least `minInterval`. -/
theorem spaced_client_never_rejected (duration : Int) (hd : 0 < duration) (s : State)
    (K : String) (hh : s.hinfo K = none) (hc : s.cinfo K = none) (evs : List Event)
    (hsp : spaced duration K none evs = true) :
    (∀ pre e post, evs = pre ++ e :: post → e.1 = K →
        (Admit duration (run duration s pre) K e.2).allowed = true ∧
          Seconds duration ≤ (Admit duration (run duration s pre) K e.2).dur) ∧
      (∀ pre post, evs = pre ++ post → ∀ x,
        ((run duration s pre).hinfo K = some x ∨ (run duration s pre).cinfo K = some x) →
          Seconds duration ≤ x.dur) := by
  have hp : prior s K = none := (prior_none_iff s K).2 ⟨hh, hc⟩
  obtain ⟨hA, hB⟩ := spaced_run duration K evs s none hsp
    (fun x hx => by rw [hh, hc] at hx; simp at hx)
    (fun x hx => by rw [hp] at hx; simp at hx)
  rw [mdur_of_pos hd] at hA hB
  refine ⟨?_, hB⟩
  intro pre e post h he
  have := hA pre e post h he
  refine ⟨?_, ?_⟩
  · rw [Admit_allowed, mdur_of_pos hd]; exact this
  · rw [Admit_dur]; exact this

theorem spaced_client_never_rejected_witness :
    ((0 : Int) < 1000000000 ∧ (New 1000000000 0).hinfo "A" = none ∧
      (New 1000000000 0).cinfo "A" = none ∧
      spaced 1000000000 "A" none [("A", 0), ("B", 5), ("A", 2000000000)] = true) ∧
    ((Admit 1000000000 (run 1000000000 (New 1000000000 0) [("A", 0), ("B", 5)])
        "A" 2000000000).allowed = true ∧
      Seconds 1000000000 ≤
        (Admit 1000000000 (run 1000000000 (New 1000000000 0) [("A", 0), ("B", 5)])
          "A" 2000000000).dur) :=
  ⟨⟨by decide, rfl, rfl, by
      simp [spaced, gapOk, mdur_one_second, Seconds, k]
      norm_num⟩,
    (spaced_client_never_rejected 1000000000 (by decide) (New 1000000000 0) "A" rfl rfl
      [("A", 0), ("B", 5), ("A", 2000000000)] (by
        simp [spaced, gapOk, mdur_one_second, Seconds, k]
        norm_num)).1 [("A", 0), ("B", 5)] ("A", 2000000000) [] rfl rfl⟩

/-! ## The epoch length -/

/-- C11, as stated, fails: the epoch length is a `Duration`, an `int64` count of
nanoseconds, and `21 * minInterval` need not fit one. With `minInterval` of
`5e17 ns` (a valid `Duration`, about 15.8 years) the claimed value `1.05e19 ns`
is above the largest `int64`: the conversion is out of range and the floor
leaves ten minutes; whatever `int64` an implementation yields there, the
floored value differs from the claimed one. -/
theorem epoch_length_overflow :
    (¬ ∀ duration : Int, 0 < duration → duration ≤ MaxInt64 →
        sdur duration = max (21 * duration) (10 * Minute)) ∧
      sdur 500000000000000000 = 10 * Minute ∧
      ∀ v : Int, v ≤ MaxInt64 →
        (if v < 10 * Minute then 10 * Minute else v) ≠
          max (21 * 500000000000000000) (10 * Minute) := by
  have hs : sdur 500000000000000000 = 600000000000 :=
    sdur_of_large (by decide) (by decide)
  have hM : (10 * Minute : Int) = 600000000000 := by norm_num [Minute, Second]
  refine ⟨?_, ?_, ?_⟩
  · intro h
    have h1 := h 500000000000000000 (by decide) (by decide)
    rw [hs, hM] at h1
    revert h1
    decide
  · rw [hs, hM]
  · intro v hv
    rw [hM]
    have hmax : max (21 * 500000000000000000) (600000000000 : Int) =
        10500000000000000000 := by decide
    rw [hmax]
    unfold MaxInt64 at hv
    split_ifs <;> omega

/-- C11, amended: with rate limiting enabled and `21 * minInterval` within the
range of a `Duration`, the epoch length set by `New` is, in seconds,
`max (minInterval * (m + k - 1) / k) 600` with `m = 1.200` and `k = 0.010`, that
is `max (21 * minInterval) (10 minutes)`; and for every `minInterval > 0` it is
at least ten minutes, hence positive, and the first epoch deadline is the
construction time plus the epoch length. -/
theorem epoch_length (duration : Int) (hd : 0 < duration) (start : Int) :
    (21 * duration ≤ MaxInt64 →
        Seconds (sdur duration) =
            max (Seconds duration * (1200 / 1000 + 10 / 1000 - 1) / (10 / 1000)) 600 ∧
          sdur duration = max (21 * duration) (10 * Minute)) ∧
      10 * Minute ≤ sdur duration ∧ 0 < sdur duration ∧
      (New duration start).stime = start + sdur duration := by
  have h2 := sdur_ge_ten_minutes hd
  have hM : (10 * Minute : Int) = 600000000000 := by norm_num [Minute, Second]
  refine ⟨?_, h2, ?_, ?_⟩
  · intro hr
    have h1 := sdur_of_pos hd hr
    refine ⟨?_, ?_⟩
    · rw [h1]
      unfold Seconds
      rcases le_total (21 * duration) 600000000000 with h | h
      · rw [max_eq_right h, max_eq_right]
        · norm_num
        · have : ((21 * duration : Int) : ℚ) ≤ ((600000000000 : Int) : ℚ) := by
            exact_mod_cast h
          push_cast at this
          linarith
      · rw [max_eq_left h, max_eq_left]
        · push_cast; ring
        · have : ((600000000000 : Int) : ℚ) ≤ ((21 * duration : Int) : ℚ) := by
            exact_mod_cast h
          push_cast at this
          linarith
    · rw [h1, hM]
  · rw [hM] at h2; omega
  · simp [New, hd, Add]

theorem epoch_length_witness :
    ((0 : Int) < 1000000000 ∧ 21 * 1000000000 ≤ MaxInt64) ∧
    ((Seconds (sdur 1000000000) =
        max (Seconds 1000000000 * (1200 / 1000 + 10 / 1000 - 1) / (10 / 1000)) 600 ∧
      sdur 1000000000 = max (21 * 1000000000) (10 * Minute)) ∧
      10 * Minute ≤ sdur 1000000000 ∧ 0 < sdur 1000000000 ∧
      (New 1000000000 7).stime = 7 + sdur 1000000000) :=
  ⟨⟨by decide, by decide⟩,
    (epoch_length 1000000000 (by decide) 7).1 (by decide),
    (epoch_length 1000000000 (by decide) 7).2⟩

/-! ## The middleware: disabled mode, short circuit, execution guard -/

theorem Admit_err (duration : Int) (s : State) (key : String) (now : Int) :
    (Admit duration s key now).err =
      if estimate duration s key now < mdur duration then
        some ⟨StatusTooManyRequests, key⟩
      else none := by
  unfold Admit
  dsimp only
  split_ifs <;> rfl

theorem Admit_logged (duration : Int) (s : State) (key : String) (now : Int) :
    (Admit duration s key now).logged =
      (decide (estimate duration s key now < mdur duration) &&
        decide (mdur duration ≤ (find s key).1.dur)) := by
  unfold Admit
  dsimp only
  split_ifs with h <;> simp [h]

theorem check_of_nonpos {duration : Int} (hd : duration ≤ 0) (s : State) (key : String)
    (now : Int) : check duration s key now = { state := s, err := none, logged := false } := by
  have : ¬ duration > 0 := not_lt.2 hd
  simp [check, this]

/-- C12: when the limiter is built with `duration ≤ 0`, `New` leaves the epoch
deadline at its zero value and both generations empty; the rate check of any
request returns no error, logs nothing and leaves the captured variables as they
are, so the handler is reached through the execution guard; and after any
sequence of requests the captured variables are still those `New` left. -/
theorem disabled_mode (size duration timeout : Int) (hd : duration ≤ 0) (start : Int) :
    New duration start = { stime := 0, hinfo := emptyMap, cinfo := emptyMap } ∧
      (∀ (s : State) (key : String) (now : Int),
        (check duration s key now).err = none ∧ (check duration s key now).state = s ∧
          (check duration s key now).logged = false) ∧
      (∀ (s : State) (req : Request),
        (middleware size duration timeout s req).state = s ∧
          (middleware size duration timeout s req).invoked = 1 ∧
          (middleware size duration timeout s req).logged = false ∧
          (middleware size duration timeout s req).result =
            Run timeout req.key (req.next (if size > 0 then some size else none))
              req.deadlineFirst) ∧
      ∀ reqs : List Request,
        serve size duration timeout (New duration start) reqs = New duration start := by
  have hmw : ∀ (s : State) (req : Request),
      middleware size duration timeout s req =
        { state := s,
          result := Run timeout req.key (req.next (if size > 0 then some size else none))
            req.deadlineFirst,
          invoked := 1, logged := false } := by
    intro s req
    simp [middleware, check_of_nonpos hd]
  refine ⟨?_, ?_, ?_, ?_⟩
  · have : ¬ duration > 0 := not_lt.2 hd
    simp [New, this]
  · intro s key now
    rw [check_of_nonpos hd]
    exact ⟨rfl, rfl, rfl⟩
  · intro s req
    rw [hmw]
    exact ⟨rfl, rfl, rfl, rfl⟩
  · intro reqs
    generalize New duration start = s0
    induction reqs generalizing s0 with
    | nil => rfl
    | cons r rs ih =>
      show serve size duration timeout (middleware size duration timeout s0 r).state rs = s0
      rw [hmw]
      exact ih s0

theorem disabled_mode_witness :
    (0 : Int) ≤ 0 ∧
    (New 0 5 = { stime := 0, hinfo := emptyMap, cinfo := emptyMap } ∧
      (∀ (s : State) (key : String) (now : Int),
        (check 0 s key now).err = none ∧ (check 0 s key now).state = s ∧
          (check 0 s key now).logged = false) ∧
      (∀ (s : State) (req : Request),
        (middleware 0 0 0 s req).state = s ∧
          (middleware 0 0 0 s req).invoked = 1 ∧
          (middleware 0 0 0 s req).logged = false ∧
          (middleware 0 0 0 s req).result =
            Run 0 req.key (req.next (if (0 : Int) > 0 then some 0 else none))
              req.deadlineFirst) ∧
      ∀ reqs : List Request, serve 0 0 0 (New 0 5) reqs = New 0 5) :=
  ⟨by decide, disabled_mode 0 0 0 (by decide) 5⟩

/-- C13: the middleware ends a request whose rate check fails (rate limiting
enabled and `dur < minInterval`) with the too-many-requests failure carrying the
client key, without calling the handler; in every other case (rate check passed,
or rate limiting disabled) the handler is called exactly once, through the
execution guard, whose result is the result of the middleware. -/
theorem rate_limit_short_circuit (size duration timeout : Int) (s : State)
    (req : Request) :
    (middleware size duration timeout s req).invoked =
        (if 0 < duration ∧ estimate duration s req.key req.now < Seconds duration
          then 0 else 1) ∧
      (middleware size duration timeout s req).result =
        (if 0 < duration ∧ estimate duration s req.key req.now < Seconds duration then
          Result.ret (some (GoError.status ⟨429, req.key⟩))
        else
          Run timeout req.key (req.next (if size > 0 then some size else none))
            req.deadlineFirst) := by
  by_cases hd : 0 < duration
  · have hc : check duration s req.key req.now =
        { state := (Admit duration s req.key req.now).state,
          err := (Admit duration s req.key req.now).err,
          logged := (Admit duration s req.key req.now).logged } := by
      simp [check, hd]
    rw [← mdur_of_pos hd]
    by_cases hr : estimate duration s req.key req.now < mdur duration
    · simp [middleware, hc, Admit_err, hr, hd, StatusTooManyRequests]
    · simp [middleware, hc, Admit_err, hr, hd]
  · have hd' : duration ≤ 0 := not_lt.1 hd
    simp [middleware, check_of_nonpos hd', hd]

/-- C14: the result of the execution guard. With `timeout ≤ 0` it is the
handler's own result. With `timeout > 0`: when the `time.After` case is taken it
is the request-timeout failure carrying the client key, whatever the handler
does; otherwise a handler that returns gives its result unchanged, a handler
that aborts with `x` gives the ordinary failure with message `"ws: " ++ x`, and
a handler that never returns leaves only the request-timeout failure. The worker
sends on the channel at most once. -/
theorem guard_result (timeout : Int) (key : String) (h : Result) (deadlineFirst : Bool) :
    Run timeout key h deadlineFirst =
        (if timeout ≤ 0 then h
         else if deadlineFirst = true then
           Result.ret (some (GoError.status ⟨408, key⟩))
         else
           match h with
           | Result.ret e => Result.ret e
           | Result.aborted x => Result.ret (some (GoError.message ("ws: " ++ x)))
           | Result.hang => Result.ret (some (GoError.status ⟨408, key⟩))) ∧
      ((worker h).filter ChanOp.isSend).length ≤ 1 := by
  refine ⟨?_, ?_⟩
  · unfold Run
    by_cases ht : timeout ≤ 0
    · simp [ht]
    · cases deadlineFirst
      · cases h <;> simp [ht, worker, receive, StatusRequestTimeout]
      · simp [ht, StatusRequestTimeout]
  · cases h <;> simp [worker, ChanOp.isSend]

/-! ## The abandoned worker -/

theorem workerStep_blocked (v : Option GoError) (rest : List ChanOp) :
    workerStep (ch, ChanOp.send v :: rest) = (ch, ChanOp.send v :: rest) := by
  simp [workerStep, ch, makeChan]

theorem iterate_blocked (v : Option GoError) (rest : List ChanOp) (n : Nat) :
    Nat.iterate workerStep n (ch, ChanOp.send v :: rest) = (ch, ChanOp.send v :: rest) := by
  induction n with
  | zero => rfl
  | succ n ih => rw [Function.iterate_succ_apply', ih, workerStep_blocked]

/-- C15 fails on the code: `ch` is made unbuffered at line 77, so once the caller
has left the `select` through the `time.After` case the worker of a handler that
returns (or aborts) stays blocked on its send for ever, with both the send and
the close still to do after any number of steps. With one slot of buffer the
same worker is done after two steps. -/
theorem worker_blocked_forever :
    (∀ (n : Nat) (e : Option GoError),
        abandoned ch (Result.ret e) n = (ch, [ChanOp.send e, ChanOp.close])) ∧
      (∀ (n : Nat) (x : String),
        abandoned ch (Result.aborted x) n =
          (ch, [ChanOp.send (some (GoError.message ("ws: " ++ x))), ChanOp.close])) ∧
      (∀ e : Option GoError, (abandoned (makeChan 1) (Result.ret e) 2).2 = []) ∧
      ∀ x : String, (abandoned (makeChan 1) (Result.aborted x) 2).2 = [] := by
  refine ⟨?_, ?_, ?_, ?_⟩
  · intro n e
    exact iterate_blocked e [ChanOp.close] n
  · intro n x
    exact iterate_blocked _ [ChanOp.close] n
  · intro e
    simp [abandoned, worker, workerStep, makeChan]
  · intro x
    simp [abandoned, worker, workerStep, makeChan]

/-! ## The scenario with `minInterval` one second -/

theorem estimate_fresh (duration : Int) (s : State) (key : String) (now : Int)
    (h : prior s key = none) : estimate duration s key now = m * mdur duration := by
  rw [estimate_eq, h]

theorem estimate_of_hinfo (duration : Int) (s : State) (key : String) (now : Int)
    (x : info) (h : s.hinfo key = some x) :
    estimate duration s key now = k * Seconds (now - x.time) + (1 - k) * x.dur := by
  rw [estimate_eq, prior_of_hinfo s key x h]
  rfl

theorem New_prior (duration start : Int) (key : String) :
    prior (New duration start) key = none :=
  (prior_none_iff _ _).2 ⟨New_hinfo _ _ _, New_cinfo _ _ _⟩

/-- C16: with `minInterval` one second and a limiter just built, the first
request of key `A` (at any time `t`) is allowed and stores the estimate `1.2`;
the second one, `100 ms` later, gets `dur = 0.010 * 0.1 + 0.990 * 1.2 = 1.189`
and is allowed. -/
theorem scenario_first_two (start t : Int) :
    (Admit 1000000000 (New 1000000000 start) "A" t).allowed = true ∧
      (Admit 1000000000 (New 1000000000 start) "A" t).state.hinfo "A" =
        some ⟨6 / 5, t⟩ ∧
      (Admit 1000000000 (Admit 1000000000 (New 1000000000 start) "A" t).state "A"
          (t + 100000000)).dur = 10 / 1000 * (1 / 10) + 990 / 1000 * (12 / 10) ∧
      (Admit 1000000000 (Admit 1000000000 (New 1000000000 start) "A" t).state "A"
          (t + 100000000)).dur = 1189 / 1000 ∧
      (Admit 1000000000 (Admit 1000000000 (New 1000000000 start) "A" t).state "A"
          (t + 100000000)).allowed = true := by
  have h1 : estimate 1000000000 (New 1000000000 start) "A" t = 6 / 5 := by
    rw [estimate_fresh _ _ _ _ (New_prior _ _ _), mdur_one_second]
    norm_num [m]
  have hrec : (Admit 1000000000 (New 1000000000 start) "A" t).state.hinfo "A" =
      some ⟨6 / 5, t⟩ := by
    rw [Admit_hinfo_self, h1]
  have h2 : estimate 1000000000 (Admit 1000000000 (New 1000000000 start) "A" t).state "A"
      (t + 100000000) = 1189 / 1000 := by
    rw [estimate_of_hinfo _ _ _ _ _ hrec]
    have : t + 100000000 - t = 100000000 := by ring
    simp only [this, Seconds, k]
    norm_num
  refine ⟨?_, hrec, ?_, ?_, ?_⟩
  · rw [Admit_allowed, h1, mdur_one_second]; norm_num
  · rw [Admit_dur, h2]; norm_num
  · rw [Admit_dur, h2]
  · rw [Admit_allowed, h2, mdur_one_second]; norm_num

/-- The record of `K` after `n` further requests at a constant gap `g`, starting
from the record `(e0, t0)` in the current generation. -/
theorem burst_from_record (duration : Int) (K : String) (t0 g : Int) (e0 : ℚ) (n : Nat) :
    ∀ s : State, s.hinfo K = some ⟨e0, t0⟩ →
      (run duration s (constGap K (t0 + g) g n)).hinfo K =
        some ⟨Seconds g + (1 - k) ^ n * (e0 - Seconds g), t0 + (n : Int) * g⟩ := by
  induction n with
  | zero =>
    intro s hs
    have : run duration s (constGap K (t0 + g) g 0) = s := rfl
    rw [this, hs]
    simp
  | succ n ih =>
    intro s hs
    rw [constGap_succ, run_append]
    have hrun : run duration (run duration s (constGap K (t0 + g) g n))
        [(K, t0 + g + (n : Int) * g)] =
        (Admit duration (run duration s (constGap K (t0 + g) g n)) K
          (t0 + g + (n : Int) * g)).state := rfl
    rw [hrun, Admit_hinfo_self, estimate_of_hinfo _ _ _ _ _ (ih s hs)]
    have hg : t0 + g + (n : Int) * g - (t0 + (n : Int) * g) = g := by ring
    simp only [hg]
    congr 1
    refine congrArg₂ info.mk ?_ ?_
    · ring
    · push_cast; ring

/-- C17: in the scenario with `minInterval` one second, after the requests at `t`
and `t + 100 ms`, a hundred further requests `50 ms` apart leave a stored
estimate below `1`; and in general, with rate limiting enabled, a request whose
prior record has an estimate below `minInterval` and that comes less than
`minInterval` after it is rejected and stores an estimate below `minInterval`
again. -/
theorem sustained_burst_rejected :
    (∀ start t : Int, ∃ x : info,
        (run 1000000000
            (run 1000000000 (New 1000000000 start) [("A", t), ("A", t + 100000000)])
            (constGap "A" (t + 100000000 + 50000000) 50000000 100)).hinfo "A" = some x ∧
          x.dur < 1) ∧
      ∀ (duration : Int) (s : State) (K : String) (x : info) (now : Int),
        0 < duration → prior s K = some x → x.dur < Seconds duration →
        Seconds (now - x.time) < Seconds duration →
        (Admit duration s K now).allowed = false ∧
          (Admit duration s K now).dur < Seconds duration ∧
          (Admit duration s K now).state.hinfo K =
            some ⟨(Admit duration s K now).dur, now⟩ := by
  refine ⟨?_, ?_⟩
  · intro start t
    have h1 : estimate 1000000000 (New 1000000000 start) "A" t = 6 / 5 := by
      rw [estimate_fresh _ _ _ _ (New_prior _ _ _), mdur_one_second]
      norm_num [m]
    have hrec : (Admit 1000000000 (New 1000000000 start) "A" t).state.hinfo "A" =
        some ⟨6 / 5, t⟩ := by
      rw [Admit_hinfo_self, h1]
    have h2 : estimate 1000000000 (Admit 1000000000 (New 1000000000 start) "A" t).state "A"
        (t + 100000000) = 1189 / 1000 := by
      rw [estimate_of_hinfo _ _ _ _ _ hrec]
      have : t + 100000000 - t = 100000000 := by ring
      simp only [this, Seconds, k]
      norm_num
    have hs2 : (run 1000000000 (New 1000000000 start)
        [("A", t), ("A", t + 100000000)]).hinfo "A" = some ⟨1189 / 1000, t + 100000000⟩ := by
      show (Admit 1000000000 (Admit 1000000000 (New 1000000000 start) "A" t).state "A"
        (t + 100000000)).state.hinfo "A" = _
      rw [Admit_hinfo_self, h2]
    have h3 := burst_from_record 1000000000 "A" (t + 100000000) 50000000 (1189 / 1000) 100
      _ hs2
    refine ⟨_, h3, ?_⟩
    simp only [Seconds, k]
    norm_num
  · intro duration s K x now hd hp hx hgap
    have he : estimate duration s K now < Seconds duration := by
      rw [estimate_eq, hp]
      show k * Seconds (now - x.time) + (1 - k) * x.dur < Seconds duration
      have hk1 : (k : ℚ) = 1 / 100 := by norm_num [k]
      rw [hk1]
      linarith
    refine ⟨?_, ?_, ?_⟩
    · rw [Admit_rejected, mdur_of_pos hd]; exact he
    · rw [Admit_dur]; exact he
    · rw [Admit_hinfo_self, Admit_dur]

theorem sustained_burst_rejected_witness :
    ((0 : Int) < 1000000000 ∧
      prior { stime := 0, hinfo := mapSet emptyMap "A" ⟨1 / 2, 0⟩, cinfo := emptyMap } "A" =
        some ⟨1 / 2, 0⟩ ∧
      (⟨1 / 2, 0⟩ : info).dur < Seconds 1000000000 ∧
      Seconds (50000000 - (⟨1 / 2, 0⟩ : info).time) < Seconds 1000000000) ∧
    ((Admit 1000000000
        { stime := 0, hinfo := mapSet emptyMap "A" ⟨1 / 2, 0⟩, cinfo := emptyMap }
        "A" 50000000).allowed = false ∧
      (Admit 1000000000
        { stime := 0, hinfo := mapSet emptyMap "A" ⟨1 / 2, 0⟩, cinfo := emptyMap }
        "A" 50000000).dur < Seconds 1000000000 ∧
      (Admit 1000000000
        { stime := 0, hinfo := mapSet emptyMap "A" ⟨1 / 2, 0⟩, cinfo := emptyMap }
        "A" 50000000).state.hinfo "A" =
        some ⟨(Admit 1000000000
          { stime := 0, hinfo := mapSet emptyMap "A" ⟨1 / 2, 0⟩, cinfo := emptyMap }
          "A" 50000000).dur, 50000000⟩) :=
  ⟨⟨by decide, by simp [prior, mapSet], by norm_num [Seconds], by norm_num [Seconds]⟩,
    sustained_burst_rejected.2 1000000000
      { stime := 0, hinfo := mapSet emptyMap "A" ⟨1 / 2, 0⟩, cinfo := emptyMap }
      "A" ⟨1 / 2, 0⟩ 50000000 (by decide) (by simp [prior, mapSet])
      (by norm_num [Seconds]) (by norm_num [Seconds])⟩

/-! ## Logging -/

theorem find_fst_dur (s : State) (key : String) :
    (find s key).1.dur = match prior s key with
      | some x => x.dur
      | none => 0 := by
  rw [find_eq]
  cases prior s key <;> rfl

/-- C18: with rate limiting enabled, a rate check logs exactly when it rejects
the request (`dur < minInterval`) and the prior record it found holds an
estimate of at least `minInterval`; an allowed request is never logged, and a
rejection whose prior record is below `minInterval` is not logged. -/
theorem log_on_transition (duration : Int) (hd : 0 < duration) (s : State)
    (key : String) (now : Int) :
    ((Admit duration s key now).logged = true ↔
        (Admit duration s key now).dur < Seconds duration ∧
          ∃ x, prior s key = some x ∧ Seconds duration ≤ x.dur) ∧
      ((Admit duration s key now).allowed && (Admit duration s key now).logged) = false ∧
      ∀ x, prior s key = some x → x.dur < Seconds duration →
        (Admit duration s key now).logged = false := by
  have hpos := Seconds_pos hd
  have hlog : (Admit duration s key now).logged = true ↔
      (Admit duration s key now).dur < Seconds duration ∧
        ∃ x, prior s key = some x ∧ Seconds duration ≤ x.dur := by
    rw [Admit_logged, Admit_dur, find_fst_dur, mdur_of_pos hd]
    cases hp : prior s key with
    | none =>
      have : ¬ Seconds duration ≤ 0 := not_le.2 hpos
      simp [this]
    | some x => simp
  refine ⟨hlog, ?_, ?_⟩
  · cases hl : (Admit duration s key now).logged with
    | false => simp
    | true =>
      have h1 := (hlog.1 hl).1
      rw [Admit_dur, ← mdur_of_pos hd] at h1
      have h2 := (Admit_rejected duration s key now).2 h1
      simp [h2]
  · intro x hx hlt
    cases hl : (Admit duration s key now).logged with
    | false => rfl
    | true =>
      obtain ⟨_, y, hy, hge⟩ := hlog.1 hl
      rw [hx] at hy
      cases hy
      exact absurd hge (not_le.2 hlt)

theorem log_on_transition_witness :
    (0 : Int) < 1000000000 ∧
    (((Admit 1000000000
          { stime := 0, hinfo := mapSet emptyMap "A" ⟨1, 0⟩, cinfo := emptyMap }
          "A" 0).logged = true ↔
        (Admit 1000000000
          { stime := 0, hinfo := mapSet emptyMap "A" ⟨1, 0⟩, cinfo := emptyMap }
          "A" 0).dur < Seconds 1000000000 ∧
          ∃ x, prior { stime := 0, hinfo := mapSet emptyMap "A" ⟨1, 0⟩, cinfo := emptyMap }
            "A" = some x ∧ Seconds 1000000000 ≤ x.dur) ∧
      ((Admit 1000000000
          { stime := 0, hinfo := mapSet emptyMap "A" ⟨1, 0⟩, cinfo := emptyMap }
          "A" 0).allowed &&
        (Admit 1000000000
          { stime := 0, hinfo := mapSet emptyMap "A" ⟨1, 0⟩, cinfo := emptyMap }
          "A" 0).logged) = false ∧
      ∀ x, prior { stime := 0, hinfo := mapSet emptyMap "A" ⟨1, 0⟩, cinfo := emptyMap }
          "A" = some x → x.dur < Seconds 1000000000 →
        (Admit 1000000000
          { stime := 0, hinfo := mapSet emptyMap "A" ⟨1, 0⟩, cinfo := emptyMap }
          "A" 0).logged = false) :=
  ⟨by decide,
    log_on_transition 1000000000 (by decide)
      { stime := 0, hinfo := mapSet emptyMap "A" ⟨1, 0⟩, cinfo := emptyMap } "A" 0⟩

/-! ## What a lookup returns -/

theorem prior_step_other (duration : Int) (s : State) {key K : String} (now : Int)
    (h : key ≠ K) :
    prior (Admit duration s key now).state K = prior s K ∨
      (s.stime < now ∧ prior (Admit duration s key now).state K = none) := by
  unfold prior
  rw [Admit_hinfo_other duration s now h, Admit_cinfo]
  by_cases hr : s.stime < now
  · simp only [hr, if_true, true_and]
    cases s.hinfo K with
    | none => right; rfl
    | some x => left; rfl
  · simp only [hr, if_false]
    left; trivial

/-- Along any run of a new limiter the record found for `K` is absent or the one
written by the latest rate check for `K`. -/
theorem prior_run_latest (duration start : Int) (K : String) (evs : List Event) :
    prior (run duration (New duration start) evs) K = none ∨
      ∃ (pre mid : List Event) (t : Int), evs = pre ++ (K, t) :: mid ∧
        (∀ e ∈ mid, e.1 ≠ K) ∧
        prior (run duration (New duration start) evs) K =
          some ⟨(Admit duration (run duration (New duration start) pre) K t).dur, t⟩ := by
  induction evs using List.reverseRecOn with
  | nil => left; exact New_prior duration start K
  | append_singleton l a ih =>
    have hrun : run duration (New duration start) (l ++ [a]) =
        (Admit duration (run duration (New duration start) l) a.1 a.2).state := by
      rw [run_append]; rfl
    by_cases ha : a.1 = K
    · right
      refine ⟨l, [], a.2, ?_, by simp, ?_⟩
      · rw [← ha]
      · rw [hrun, ha, prior_of_hinfo _ K _ (Admit_hinfo_self duration _ K a.2), Admit_dur]
    · rcases prior_step_other duration (run duration (New duration start) l) a.2 ha with h | h
      · rcases ih with h0 | ⟨pre, mid, t, hl, hmid, hp⟩
        · left; rw [hrun, h, h0]
        · right
          refine ⟨pre, mid ++ [a], t, ?_, ?_, ?_⟩
          · rw [hl]; simp
          · intro e he
            rcases List.mem_append.1 he with he | he
            · exact hmid e he
            · rw [List.mem_singleton.1 he]; exact ha
          · rw [hrun, h, hp]
      · left; rw [hrun]; exact h.2

/-- C19: along any sequence of rate checks started on a new limiter, the record a
rate check for `K` finds is absent when `K` was never seen, and otherwise absent
or exactly the record written by the latest rate check for `K`; a rate check for
another key leaves the lookup result of `K` as it is or, when it rotates, may
drop it. -/
theorem lookup_latest_or_absent (duration start : Int) (K : String) :
    (∀ evs : List Event,
        prior (run duration (New duration start) evs) K = none ∨
          ∃ (pre mid : List Event) (t : Int), evs = pre ++ (K, t) :: mid ∧
            (∀ e ∈ mid, e.1 ≠ K) ∧
            prior (run duration (New duration start) evs) K =
              some ⟨(Admit duration (run duration (New duration start) pre) K t).dur, t⟩) ∧
      (∀ evs : List Event, (∀ e ∈ evs, e.1 ≠ K) →
        prior (run duration (New duration start) evs) K = none) ∧
      (∀ (pre mid : List Event) (t : Int), (∀ e ∈ mid, e.1 ≠ K) →
        prior (run duration (New duration start) (pre ++ (K, t) :: mid)) K = none ∨
          prior (run duration (New duration start) (pre ++ (K, t) :: mid)) K =
            some ⟨(Admit duration (run duration (New duration start) pre) K t).dur, t⟩) ∧
      ∀ (s : State) (key : String) (now : Int), key ≠ K →
        prior (Admit duration s key now).state K = prior s K ∨
          (s.stime < now ∧ prior (Admit duration s key now).state K = none) := by
  refine ⟨prior_run_latest duration start K, ?_, ?_, ?_⟩
  · intro evs ho
    obtain ⟨h1, h2⟩ := run_other_keys duration K evs (New duration start) ho
    rw [prior_none_iff, h1, h2, New_hinfo, New_cinfo]
    constructor <;> split_ifs <;> rfl
  · intro pre mid t ho
    rw [run_append, run_cons]
    have hx := Admit_hinfo_self duration (run duration (New duration start) pre) K t
    have hp := prior_run_other_keys duration K mid _ _ hx ho
    rw [hp, Admit_dur]
    split_ifs
    · right; rfl
    · left; rfl
  · intro s key now h
    exact prior_step_other duration s now h

theorem lookup_latest_or_absent_witness :
    (∀ e ∈ [(("J", 600000000001) : Event)], e.1 ≠ "K") ∧
    (prior (run 1000000000 (New 1000000000 0)
        ([("J", 3)] ++ ("K", 5) :: [("J", 600000000001)])) "K" = none ∨
      prior (run 1000000000 (New 1000000000 0)
        ([("J", 3)] ++ ("K", 5) :: [("J", 600000000001)])) "K" =
        some ⟨(Admit 1000000000 (run 1000000000 (New 1000000000 0) [("J", 3)]) "K" 5).dur,
          5⟩) :=
  ⟨by decide,
    (lookup_latest_or_absent 1000000000 0 "K").2.2.1 [("J", 3)] [("J", 600000000001)] 5
      (by decide)⟩

/-! ## A key seen within the last epoch -/

theorem two_rotations_late (duration : Int) (s0 : State) (K : String) (t : Int)
    (mid : List Event) (now : Int) (ho : ∀ e ∈ mid, e.1 ≠ K)
    (hfirst : ∀ e ∈ mid, t ≤ e.2) (hlast : ∀ e ∈ mid, e.2 ≤ now)
    (hf : (find (run duration (Admit duration s0 K t).state mid) K).2 = false) :
    2 ≤ rotations duration (Admit duration s0 K t).state mid ∧
      sdur duration < now - t := by
  have h2 : 2 ≤ rotations duration (Admit duration s0 K t).state mid := by
    have hx := Admit_hinfo_self duration s0 K t
    have hp := prior_run_other_keys duration K mid _ _ hx ho
    rw [find_snd, hp] at hf
    by_contra hc
    have : rotations duration (Admit duration s0 K t).state mid ≤ 1 := by omega
    simp [this] at hf
  refine ⟨h2, ?_⟩
  obtain ⟨e, he, hlt⟩ := exists_late_of_two_rotations duration t mid _ hfirst h2
  have := hlast e he
  omega

/-- C20: along non-decreasing clock readings on a limiter built by `New`, if the
rate check for `K` at `now` that follows the one at `t` finds no prior record,
then at least two rotations took place in between and `now - t > epochLength`;
so a key seen within the last epoch length is always still found. -/
theorem seen_within_epoch_found (duration start : Int) (pre mid : List Event)
    (K : String) (t now : Int) (ho : ∀ e ∈ mid, e.1 ≠ K)
    (hnd : nondecreasing (pre ++ (K, t) :: mid ++ [(K, now)])) :
    ((find (run duration (New duration start) (pre ++ (K, t) :: mid)) K).2 = false →
        2 ≤ rotations duration (run duration (New duration start) (pre ++ [(K, t)])) mid ∧
          sdur duration < now - t) ∧
      (now - t ≤ sdur duration →
        (find (run duration (New duration start) (pre ++ (K, t) :: mid)) K).2 = true) := by
  have hrun1 : run duration (New duration start) (pre ++ (K, t) :: mid) =
      run duration (Admit duration (run duration (New duration start) pre) K t).state mid := by
    rw [run_append, run_cons]
  have hrun2 : run duration (New duration start) (pre ++ [(K, t)]) =
      (Admit duration (run duration (New duration start) pre) K t).state := by
    rw [run_append]; rfl
  unfold nondecreasing at hnd
  simp only [List.append_assoc, List.cons_append, List.map_cons, List.map_append,
    List.map_nil, List.pairwise_cons, List.pairwise_append, List.mem_append, List.mem_map,
    List.mem_singleton, List.mem_cons] at hnd
  obtain ⟨_, ⟨hfirst, _, _, hlast⟩, _⟩ := hnd
  have hlo : ∀ e ∈ mid, t ≤ e.2 := fun e he => hfirst e.2 (Or.inl ⟨e, he, rfl⟩)
  have hhi : ∀ e ∈ mid, e.2 ≤ now := fun e he => hlast e.2 ⟨e, he, rfl⟩ now (Or.inl rfl)
  have main : (find (run duration (New duration start) (pre ++ (K, t) :: mid)) K).2 = false →
      2 ≤ rotations duration (run duration (New duration start) (pre ++ [(K, t)])) mid ∧
        sdur duration < now - t := by
    intro hf
    rw [hrun1] at hf
    rw [hrun2]
    exact two_rotations_late duration _ K t mid now ho hlo hhi hf
  refine ⟨main, ?_⟩
  intro hle
  cases hb : (find (run duration (New duration start) (pre ++ (K, t) :: mid)) K).2 with
  | true => rfl
  | false =>
    have := (main hb).2
    omega

theorem seen_within_epoch_found_witness :
    ((∀ e ∈ [(("J", 600000000001) : Event)], e.1 ≠ "K") ∧
      nondecreasing ([("J", 3)] ++ ("K", 5) :: [(("J", 600000000001) : Event)] ++
        [("K", 600000000001)])) ∧
    (((find (run 1000000000 (New 1000000000 0)
          ([("J", 3)] ++ ("K", 5) :: [("J", 600000000001)])) "K").2 = false →
        2 ≤ rotations 1000000000
            (run 1000000000 (New 1000000000 0) ([("J", 3)] ++ [("K", 5)]))
            [("J", 600000000001)] ∧
          sdur 1000000000 < 600000000001 - 5) ∧
      (600000000001 - 5 ≤ sdur 1000000000 →
        (find (run 1000000000 (New 1000000000 0)
          ([("J", 3)] ++ ("K", 5) :: [("J", 600000000001)])) "K").2 = true)) :=
  ⟨⟨by decide, by simp [nondecreasing]⟩,
    seen_within_epoch_found 1000000000 0 [("J", 3)] [("J", 600000000001)] "K" 5
      600000000001 (by decide) (by simp [nondecreasing])⟩

end Limiter
